import Mathlib

/-!
Verification of the NewsGuardAI content-extraction pipeline
(`src/url_scraper.py`) against its natural-language specification.

The Python code is shallowly embedded: pure text processing
(`clean_text`, URL parsing) is translated to computable functions on
`List Char` / `String`; each extraction strategy is a function of an
explicit world value describing what the underlying library calls
(network fetch, HTML parse, browser rendering) would return, with
library faults represented by `Except Fault`; the broad
`try/except` wrappers of the strategies become `absorb`, which maps
any fault to `none`.
-/

set_option maxRecDepth 4000

namespace NewsGuard

/-- Whitespace test used by the scraper model: the ASCII characters matched
by the Python regex class backslash-s and stripped by `str.strip`.  Python
additionally treats some non-ASCII code points as whitespace; both the regex
class and `str.strip` use the same set, which is all the development relies
on, so the model restricts to the ASCII subset. -/
def ws (c : Char) : Bool :=
  c == ' ' || c == '\t' || c == '\n' || c == '\r' || c == '\x0b' || c == '\x0c'

/-- Return the suffix of a list after its last newline, when the list
contains a newline.  Used to express the greedy match of the regex
pattern: newline, backslash-s star, newline. -/
def splitLastNl : List Char → Option (List Char)
  | [] => none
  | c :: t =>
    match splitLastNl t with
    | some s => some s
    | none => if c = '\n' then some t else none

/-- Fuel-indexed scanner modelling Python
`re.sub(r'\n\s*\n', '\n\n', text)`: a leftmost, non-overlapping, greedy
scan that replaces each maximal match (a newline, a greedy run of
whitespace, a final newline) by exactly two newlines.  The fuel only
serves to make the recursion structural; with fuel at least the length of
the input (see `cBgo_congr`) it computes the substitution. -/
def cBgo : Nat → List Char → List Char
  | _, [] => []
  | 0, l => l
  | fuel + 1, c :: rest =>
    if c = '\n' then
      match splitLastNl (rest.takeWhile ws) with
      | some tail => '\n' :: '\n' :: cBgo fuel (tail ++ rest.dropWhile ws)
      | none => '\n' :: cBgo fuel rest
    else c :: cBgo fuel rest

/-- Model of `re.sub(r'\n\s*\n', '\n\n', text)` in `clean_text`. -/
def collapseBlank (l : List Char) : List Char := cBgo l.length l

/-- Fuel-indexed scanner modelling Python `re.sub(r' +', ' ', text)`:
each maximal run of spaces is replaced by a single space. -/
def cSgo : Nat → List Char → List Char
  | _, [] => []
  | 0, l => l
  | fuel + 1, c :: rest =>
    if c = ' ' then ' ' :: cSgo fuel (rest.dropWhile (· == ' '))
    else c :: cSgo fuel rest

/-- Model of `re.sub(r' +', ' ', text)` in `clean_text`. -/
def collapseSpaces (l : List Char) : List Char := cSgo l.length l

/-- Model of Python `str.strip()`: remove leading and trailing whitespace. -/
def pyStrip (l : List Char) : List Char :=
  ((l.dropWhile ws).reverse.dropWhile ws).reverse

/-- The composition of the three text transforms of
`ArticleScraper.clean_text` on character lists. -/
def cleanChars (l : List Char) : List Char :=
  pyStrip (collapseSpaces (collapseBlank l))

/-- Model of `ArticleScraper.clean_text` (src/url_scraper.py lines 25-31):
empty input is returned unchanged (the `if not text` guard), otherwise the
blank-line collapse, the space collapse and the strip are applied. -/
def clean_text (s : String) : String :=
  if s = "" then "" else String.mk (cleanChars s.data)

/-- Model of Python `str.strip()` on `String`. -/
def pstrip (s : String) : String := String.mk (pyStrip s.data)

/-- No two adjacent characters are both spaces.  This characterises the
fixed points of `collapseSpaces` (see `collapseSpaces_fixed_iff`). -/
def noDoubleSpace : List Char → Prop
  | [] => True
  | [_] => True
  | a :: b :: t => ¬(a = ' ' ∧ b = ' ') ∧ noDoubleSpace (b :: t)

/-- The whitespace run following a position either contains no newline, or
starts with an immediate newline followed by newline-free whitespace. -/
def nlRunOk (rest : List Char) : Prop :=
  '\n' ∉ rest.takeWhile ws ∨ ∃ tail, rest.takeWhile ws = '\n' :: tail ∧ '\n' ∉ tail

/-- Every newline is followed by an admissible whitespace run.  This
characterises the fixed points of `collapseBlank`
(see `collapseBlank_fixed_iff`). -/
def blankFixed : List Char → Prop
  | [] => True
  | c :: rest => (c = '\n' → nlRunOk rest) ∧ blankFixed rest

/-! The URL validator.  `is_valid_url` calls `urllib.parse.urlparse` and
checks that both the scheme and the netloc are nonempty; the parser is an
outbound dependency, modelled here from the CPython implementation of
`urlsplit` as far as scheme and netloc extraction is concerned. -/

/-- Scheme characters accepted by the Python URL parser: letters, digits,
plus, minus, dot. -/
def isSchemeChar (c : Char) : Bool :=
  c.isAlpha || c.isDigit || c == '+' || c == '-' || c == '.'

/-- Characters stripped from the front of a URL by the Python URL parser:
C0 control characters and space. -/
def isC0OrSpace (c : Char) : Bool := c.val ≤ 0x20

/-- Characters removed everywhere in a URL by the Python URL parser: tab,
carriage return, newline. -/
def isUnsafeUrlChar (c : Char) : Bool := c == '\t' || c == '\r' || c == '\n'

/-- Split a list at its first colon, returning the parts before and after
it, or nothing if there is no colon. -/
def splitOnColon : List Char → Option (List Char × List Char)
  | [] => none
  | c :: t =>
    if c = ':' then some ([], t)
    else (splitOnColon t).map (fun p => (c :: p.1, p.2))

/-- Scheme extraction of the Python URL parser: when the text before the
first colon is nonempty, starts with an ASCII letter and consists of scheme
characters, it is the scheme (lowercased) and the remainder follows the
colon; otherwise the scheme is empty and nothing is consumed. -/
def splitScheme (url : List Char) : List Char × List Char :=
  match splitOnColon url with
  | none => ([], url)
  | some (before, after) =>
    match before with
    | [] => ([], url)
    | c :: rest =>
      if c.isAlpha && rest.all isSchemeChar then ((c :: rest).map Char.toLower, after)
      else ([], url)

/-- Netloc extraction of the Python URL parser: when the remainder starts
with two slashes, the netloc runs to the next slash, question mark or hash;
unbalanced square brackets (an invalid IPv6 address) raise ValueError,
modelled as an error value. -/
def splitNetloc (l : List Char) : Except Unit (List Char) :=
  match l with
  | '/' :: '/' :: rest =>
    let netloc := rest.takeWhile (fun c => !(c == '/' || c == '?' || c == '#'))
    if (netloc.contains '[' && !(netloc.contains ']'))
        || (netloc.contains ']' && !(netloc.contains '[')) then
      Except.error ()
    else Except.ok netloc
  | _ => Except.ok []

/-- Scheme and netloc components of `urllib.parse.urlparse`: strip leading
C0 controls and spaces, remove tab, carriage return and newline, split off
the scheme, then the netloc. -/
def urlparse_scheme_netloc (url : String) : Except Unit (List Char × List Char) :=
  let u := (url.data.dropWhile isC0OrSpace).filter (fun c => !isUnsafeUrlChar c)
  let p := splitScheme u
  match splitNetloc p.2 with
  | .error e => .error e
  | .ok netloc => .ok (p.1, netloc)

/-- Model of `ArticleScraper.is_valid_url` (src/url_scraper.py lines 17-23):
parse the URL and require a nonempty scheme and a nonempty netloc; a parser
ValueError is caught by the bare except clause and yields false. -/
def is_valid_url (url : String) : Bool :=
  match urlparse_scheme_netloc url with
  | .error _ => false
  | .ok (scheme, netloc) => !scheme.isEmpty && !netloc.isEmpty

/-! The four extraction strategies.  Each strategy is embedded as a
function of the URL it receives and of an explicit world describing what
the underlying libraries would return; raised exceptions are modelled by
error values, and the broad try/except wrapper of every strategy is the
function `absorb`. -/

/-- Faults a strategy body can raise. -/
inductive Fault
  | network
  | httpStatus
  | parseError
  | browserLaunch
  | timeout
deriving DecidableEq

/-- The dictionary a strategy returns: the content key is always present;
a metadata field is `some` exactly when the strategy put that key in its
dictionary. -/
structure StratResult where
  content : String
  title : Option String := none
  author : Option String := none
  date : Option String := none
  description : Option String := none
deriving DecidableEq

/-- Attribute record of a trafilatura metadata document. -/
structure TrafMeta where
  title : String
  author : String
  date : String
  description : String
deriving DecidableEq

/-- World of the trafilatura strategy: what each library call returns for a
given argument (`none` models a falsy Python return; an error value models
a raised exception). -/
structure TrafWorld where
  fetch_url : String → Except Fault (Option String)
  extract : String → Except Fault (Option String)
  extract_metadata : String → Except Fault (Option TrafMeta)

/-- Python getattr with an empty-string default, on a metadata document
that may be None. -/
def getattrOr (md : Option TrafMeta) (f : TrafMeta → String) : String :=
  match md with
  | none => ""
  | some m => f m

/-- Body of `ArticleScraper.scrape_with_trafilatura` (src/url_scraper.py
lines 65-84) inside its try/except wrapper: fetch the page, bail out with
None on a falsy download or extraction, clean the text and read the
metadata attributes. -/
def trafBody (url : String) (w : TrafWorld) : Except Fault (Option StratResult) :=
  match w.fetch_url url with
  | .error f => .error f
  | .ok none => .ok none
  | .ok (some d) =>
    if d = "" then .ok none
    else
      match w.extract d with
      | .error f => .error f
      | .ok none => .ok none
      | .ok (some t) =>
        if t = "" then .ok none
        else
          match w.extract_metadata d with
          | .error f => .error f
          | .ok md =>
            .ok (some {
              content := clean_text t
              title := some (getattrOr md (fun m => m.title))
              author := some (getattrOr md (fun m => m.author))
              date := some (getattrOr md (fun m => m.date))
              description := some (getattrOr md (fun m => m.description)) })

/-- A meta tag found in the page; its content attribute may be missing. -/
structure MetaTag where
  content : Option String
deriving DecidableEq

/-- The parts of a parsed page that `extract_metadata` and the
BeautifulSoup strategy read. -/
structure Soup where
  title_tag : Option String
  og_title : Option MetaTag
  name_title : Option MetaTag
  h1 : Option String
  name_author : Option MetaTag
  article_published_time : Option MetaTag
  og_description : Option MetaTag
  name_description : Option MetaTag
  paragraphs : List String
deriving DecidableEq

/-- Metadata dictionary built by `ArticleScraper.extract_metadata`: every
key present, defaulted to the empty string. -/
structure Metadata where
  title : String := ""
  author : String := ""
  date : String := ""
  description : String := ""
deriving DecidableEq

/-- Python truthiness chain used on meta tags: the tag exists and its
content attribute is a nonempty string. -/
def tagContent : Option MetaTag → Option String
  | some tag =>
    match tag.content with
    | some c => if c = "" then none else some c
    | none => none
  | none => none

/-- Python or on two optional tags: the first one present wins. -/
def firstTag (a b : Option MetaTag) : Option MetaTag :=
  match a with
  | some t => some t
  | none => b

/-- Model of `ArticleScraper.extract_metadata` (src/url_scraper.py lines
33-63): title from the title tag, overridden by og:title or a name=title
meta tag, falling back to the first h1 when still empty; author, date and
description from their meta tags.  The internal try/except only guards
against library faults, which the pure page model cannot raise. -/
def extract_metadata (soup : Soup) : Metadata :=
  let m1 : Metadata :=
    match soup.title_tag with
    | some t => { title := pstrip t }
    | none => {}
  let m2 : Metadata :=
    match tagContent (firstTag soup.og_title soup.name_title) with
    | some c => { m1 with title := pstrip c }
    | none => m1
  let m3 : Metadata :=
    match soup.h1 with
    | some h => if m2.title = "" then { m2 with title := pstrip h } else m2
    | none => m2
  let m4 : Metadata :=
    match tagContent soup.name_author with
    | some c => { m3 with author := pstrip c }
    | none => m3
  let m5 : Metadata :=
    match tagContent soup.article_published_time with
    | some c => { m4 with date := pstrip c }
    | none => m4
  match tagContent (firstTag soup.og_description soup.name_description) with
  | some c => { m5 with description := pstrip c }
  | none => m5

/-- An HTTP response: status code, and the outcome of parsing its body. -/
structure HttpResponse where
  status : Nat
  body : Except Fault Soup

/-- World of the BeautifulSoup strategy. -/
structure BsWorld where
  get : String → Except Fault HttpResponse

/-- Body of `ArticleScraper.scrape_with_beautifulsoup` (src/url_scraper.py
lines 86-99): fetch, raise_for_status on a 4xx or 5xx status, parse,
extract metadata, join the paragraph texts with newlines and clean; empty
content yields None, otherwise the metadata dictionary with the content
key added. -/
def bsBody (url : String) (w : BsWorld) : Except Fault (Option StratResult) :=
  match w.get url with
  | .error f => .error f
  | .ok resp =>
    if 400 ≤ resp.status ∧ resp.status < 600 then .error Fault.httpStatus
    else
      match resp.body with
      | .error f => .error f
      | .ok soup =>
        let md := extract_metadata soup
        let content := clean_text (String.intercalate "\n" soup.paragraphs)
        if content = "" then .ok none
        else
          .ok (some {
            content := content
            title := some md.title
            author := some md.author
            date := some md.date
            description := some md.description })

/-- Attributes of a parsed newspaper article. -/
structure NewsArticle where
  text : String
  title : Option String
  authors : List String
  publish_date : Option String
  meta_description : Option String
deriving DecidableEq

/-- World of the newspaper strategy: download and parse either raises or
yields the parsed attributes. -/
structure NewsWorld where
  fetch : String → Except Fault NewsArticle

/-- Body of `ArticleScraper.scrape_with_newspaper` (src/url_scraper.py
lines 101-116): download and parse, then build the dictionary, defaulting
a falsy title, author list, publish date or description to the empty
string; the author list is joined with comma-space. -/
def newsBody (url : String) (w : NewsWorld) : Except Fault (Option StratResult) :=
  match w.fetch url with
  | .error f => .error f
  | .ok a =>
    .ok (some {
      content := clean_text a.text
      title := some (match a.title with | some t => t | none => "")
      author := some (if a.authors.isEmpty then "" else String.intercalate ", " a.authors)
      date := some (match a.publish_date with | some d => d | none => "")
      description := some (match a.meta_description with | some d => d | none => "") })

/-- World of the Playwright strategy: launching the browser, navigating
(40 second timeout) and reading the rendered page either raises or yields
the paragraph texts of the rendered document. -/
structure PwWorld where
  render : String → Except Fault (List String)

/-- Body of `ArticleScraper.scrape_with_playwright` (src/url_scraper.py
lines 118-133): render the page, join the paragraph texts; an empty joined
text yields None, otherwise a dictionary holding only the content key. -/
def pwBody (url : String) (w : PwWorld) : Except Fault (Option StratResult) :=
  match w.render url with
  | .error f => .error f
  | .ok paragraphs =>
    let text := String.intercalate "\n" paragraphs
    if text = "" then .ok none
    else .ok (some { content := clean_text text })

/-- The try/except wrapper around every strategy body: any fault becomes
None, so no exception crosses a strategy boundary. -/
def absorb (e : Except Fault (Option StratResult)) : Option StratResult :=
  match e with
  | .ok r => r
  | .error _ => none

def scrape_with_trafilatura (url : String) (w : TrafWorld) : Option StratResult :=
  absorb (trafBody url w)

def scrape_with_beautifulsoup (url : String) (w : BsWorld) : Option StratResult :=
  absorb (bsBody url w)

def scrape_with_newspaper (url : String) (w : NewsWorld) : Option StratResult :=
  absorb (newsBody url w)

def scrape_with_playwright (url : String) (w : PwWorld) : Option StratResult :=
  absorb (pwBody url w)

/-- One world per strategy; a fresh scraper uses them for a single
`extract_article_content` call. -/
structure ScrapeWorld where
  traf : TrafWorld
  bs : BsWorld
  news : NewsWorld
  pw : PwWorld

/-- The cascade acceptance test of line 155: the result is truthy and its
content is longer than 50 characters. -/
def acceptable : Option StratResult → Bool
  | none => false
  | some r => 50 < r.content.length

/-- The for loop of lines 148-157: the result variable is assigned each
attempt in turn; the loop breaks at the first acceptable result; when no
attempt is acceptable the variable keeps the value of the last attempt.
The second component counts how many strategies were invoked. -/
def loopMethods : List (Option StratResult) → Option StratResult → Option StratResult × Nat
  | [], cur => (cur, 0)
  | m :: rest, _ =>
    if acceptable m then (m, 1)
    else ((loopMethods rest m).1, (loopMethods rest m).2 + 1)

/-- The four strategies in cascade order, each applied to the given URL. -/
def stratList4 (url : String) (w : ScrapeWorld) : List (Option StratResult) :=
  [scrape_with_trafilatura url w.traf,
   scrape_with_beautifulsoup url w.bs,
   scrape_with_newspaper url w.news,
   scrape_with_playwright url w.pw]

/-- List version of Python str.startswith: the first list is an initial
segment of the second. -/
def startsWithChars : List Char → List Char → Bool
  | [], _ => true
  | _ :: _, [] => false
  | p :: ps, c :: cs => p == c && startsWithChars ps cs

/-- Python str.startswith on strings. -/
def pyStartsWith (pre s : String) : Bool := startsWithChars pre.data s.data

/-- Lines 142-143: prepend the https scheme when the URL does not start
with an http or https prefix. -/
def normUrl (url : String) : String :=
  if pyStartsWith "http://" url || pyStartsWith "https://" url then url
  else "https://" ++ url

/-- The caller-visible outcome dictionary.  An optional metadata field is
`some` exactly when the corresponding key is present in the returned
dictionary. -/
structure Outcome where
  success : Bool
  error : String
  content : String
  title : Option String := none
  author : Option String := none
  date : Option String := none
  description : Option String := none
deriving DecidableEq

/-- Line 140: the invalid-URL outcome. -/
def invalidOutcome : Outcome :=
  { success := false, error := "Invalid URL format", content := "" }

/-- Lines 159-164: the extraction-exhausted outcome. -/
def exhaustedOutcome : Outcome :=
  { success := false
    error := "Unable to extract readable content. The site may use paywalls or advanced JS."
    content := "" }

/-- Lines 159-174: reject a missing result or one whose content is shorter
than 20 characters, otherwise build the success dictionary with every
missing metadata key defaulted to the empty string. -/
def finalize : Option StratResult → Outcome
  | none => exhaustedOutcome
  | some r =>
    if r.content.length < 20 then exhaustedOutcome
    else
      { success := true
        error := ""
        content := r.content
        title := some (r.title.getD "")
        author := some (r.author.getD "")
        date := some (r.date.getD "")
        description := some (r.description.getD "") }

/-- Model of `extract_article_content` (src/url_scraper.py lines 136-174)
together with the number of strategies invoked: validate the raw URL
first; on rejection return at once with no strategy invoked; otherwise
normalise the scheme, run the cascade and finalize its result. -/
def extractRun (url : String) (w : ScrapeWorld) : Outcome × Nat :=
  if is_valid_url url then
    (finalize (loopMethods (stratList4 (normUrl url) w) none).1,
      (loopMethods (stratList4 (normUrl url) w) none).2)
  else (invalidOutcome, 0)

/-- The façade `extract_article_content`: the outcome component of
`extractRun`. -/
def extract_article_content (url : String) (w : ScrapeWorld) : Outcome :=
  (extractRun url w).1

/-- How many strategies a call to `extract_article_content` invoked. -/
def strategiesInvoked (url : String) (w : ScrapeWorld) : Nat :=
  (extractRun url w).2

/-- Trimmed content length of an optional strategy result. -/
def trimLen : Option StratResult → Nat
  | none => 0
  | some r => (pyStrip r.content.data).length

/-- A concrete world in which every library call raises a network fault:
every strategy attempt returns None. -/
def worldAllFail : ScrapeWorld :=
  { traf := { fetch_url := fun _ => .error Fault.network
              extract := fun _ => .error Fault.network
              extract_metadata := fun _ => .error Fault.network }
    bs := { get := fun _ => .error Fault.network }
    news := { fetch := fun _ => .error Fault.network }
    pw := { render := fun _ => .error Fault.network } }

/-- A concrete world in which the trafilatura strategy extracts a 60
character text and every other library call fails. -/
def worldTrafWins : ScrapeWorld :=
  { worldAllFail with
    traf := { fetch_url := fun _ => .ok (some "html")
              extract := fun _ => .ok (some (String.mk (List.replicate 60 'x')))
              extract_metadata := fun _ => .ok none } }

/-- A concrete world in which only the playwright strategy produces text,
30 characters long. -/
def worldPwShort : ScrapeWorld :=
  { worldAllFail with
    pw := { render := fun _ => .ok [String.mk (List.replicate 30 'y')] } }

/-- A concrete world in which only the trafilatura strategy produces text,
30 characters long. -/
def worldTrafShort : ScrapeWorld :=
  { worldAllFail with
    traf := { fetch_url := fun _ => .ok (some "html")
              extract := fun _ => .ok (some (String.mk (List.replicate 30 'y')))
              extract_metadata := fun _ => .ok none } }

/-! Basic lemmas about the fuel-indexed scanners. -/

theorem splitLastNl_length : ∀ {l t : List Char}, splitLastNl l = some t → t.length < l.length := by
  intro l
  induction l with
  | nil => intro t h; simp [splitLastNl] at h
  | cons c rest ih =>
    intro t h
    simp only [splitLastNl] at h
    cases hr : splitLastNl rest with
    | some s =>
      rw [hr] at h
      cases h
      exact Nat.lt_trans (ih hr) (Nat.lt_succ_self _)
    | none =>
      rw [hr] at h
      by_cases hc : c = '\n'
      · simp [hc] at h
        subst h
        exact Nat.lt_succ_self _
      · simp [hc] at h

theorem len_take_drop (p : Char → Bool) (l : List Char) :
    (l.takeWhile p).length + (l.dropWhile p).length = l.length := by
  conv_rhs => rw [← List.takeWhile_append_dropWhile (p := p) (l := l)]
  exact (List.length_append _ _).symm

theorem cBgo_congr : ∀ (f g : Nat) (l : List Char),
    l.length ≤ f → l.length ≤ g → cBgo f l = cBgo g l := by
  intro f
  induction f with
  | zero =>
    intro g l hf _
    have : l = [] := List.length_eq_zero.mp (Nat.le_zero.mp hf)
    subst this
    cases g <;> rfl
  | succ f ih =>
    intro g l hf hg
    cases l with
    | nil => cases g <;> rfl
    | cons c rest =>
      cases g with
      | zero => exact absurd hg (by simp)
      | succ g =>
        have hrf : rest.length ≤ f := Nat.le_of_succ_le_succ hf
        have hrg : rest.length ≤ g := Nat.le_of_succ_le_succ hg
        simp only [cBgo]
        by_cases hc : c = '\n'
        · simp only [hc, if_pos rfl]
          cases hs : splitLastNl (rest.takeWhile ws) with
          | some tail =>
            have htail : tail.length < (rest.takeWhile ws).length := splitLastNl_length hs
            have hlen : (tail ++ rest.dropWhile ws).length ≤ rest.length := by
              rw [List.length_append]
              have := len_take_drop ws rest
              omega
            exact congrArg (fun x => '\n' :: '\n' :: x)
              (ih g _ (Nat.le_trans hlen hrf) (Nat.le_trans hlen hrg))
          | none =>
            exact congrArg (fun x => '\n' :: x) (ih g rest hrf hrg)
        · simp only [if_neg hc]
          exact congrArg (fun x => c :: x) (ih g rest hrf hrg)

theorem cSgo_congr : ∀ (f g : Nat) (l : List Char),
    l.length ≤ f → l.length ≤ g → cSgo f l = cSgo g l := by
  intro f
  induction f with
  | zero =>
    intro g l hf _
    have : l = [] := List.length_eq_zero.mp (Nat.le_zero.mp hf)
    subst this
    cases g <;> rfl
  | succ f ih =>
    intro g l hf hg
    cases l with
    | nil => cases g <;> rfl
    | cons c rest =>
      cases g with
      | zero => exact absurd hg (by simp)
      | succ g =>
        have hrf : rest.length ≤ f := Nat.le_of_succ_le_succ hf
        have hrg : rest.length ≤ g := Nat.le_of_succ_le_succ hg
        simp only [cSgo]
        by_cases hc : c = ' '
        · simp only [hc, if_pos rfl]
          have hlen : (rest.dropWhile (· == ' ')).length ≤ rest.length := by
            have := len_take_drop (· == ' ') rest
            omega
          exact congrArg (fun x => ' ' :: x)
            (ih g _ (Nat.le_trans hlen hrf) (Nat.le_trans hlen hrg))
        · simp only [if_neg hc]
          exact congrArg (fun x => c :: x) (ih g rest hrf hrg)

theorem collapseBlank_nil : collapseBlank [] = [] := rfl

theorem collapseBlank_cons_ne {c : Char} (l : List Char) (h : ¬ c = '\n') :
    collapseBlank (c :: l) = c :: collapseBlank l := by
  show cBgo (c :: l).length (c :: l) = c :: collapseBlank l
  simp only [List.length_cons, cBgo, if_neg h]
  exact congrArg (fun x => c :: x) (cBgo_congr _ _ _ (Nat.le_refl _) (Nat.le_refl _))

theorem collapseBlank_cons_none (l : List Char) (h : splitLastNl (l.takeWhile ws) = none) :
    collapseBlank ('\n' :: l) = '\n' :: collapseBlank l := by
  show cBgo ('\n' :: l).length ('\n' :: l) = '\n' :: collapseBlank l
  simp only [List.length_cons, cBgo, if_pos rfl, h]
  exact congrArg (fun x => '\n' :: x) (cBgo_congr _ _ _ (Nat.le_refl _) (Nat.le_refl _))

theorem collapseBlank_cons_some (l tail : List Char)
    (h : splitLastNl (l.takeWhile ws) = some tail) :
    collapseBlank ('\n' :: l) = '\n' :: '\n' :: collapseBlank (tail ++ l.dropWhile ws) := by
  show cBgo ('\n' :: l).length ('\n' :: l) = _
  simp only [List.length_cons, cBgo, if_pos rfl, h]
  have htail : tail.length < (l.takeWhile ws).length := splitLastNl_length h
  have hlen : (tail ++ l.dropWhile ws).length ≤ l.length := by
    rw [List.length_append]
    have := len_take_drop ws l
    omega
  exact congrArg (fun x => '\n' :: '\n' :: x) (cBgo_congr _ _ _ hlen (Nat.le_refl _))

theorem collapseSpaces_nil : collapseSpaces [] = [] := rfl

theorem collapseSpaces_cons_ne {c : Char} (l : List Char) (h : ¬ c = ' ') :
    collapseSpaces (c :: l) = c :: collapseSpaces l := by
  show cSgo (c :: l).length (c :: l) = c :: collapseSpaces l
  simp only [List.length_cons, cSgo, if_neg h]
  exact congrArg (fun x => c :: x) (cSgo_congr _ _ _ (Nat.le_refl _) (Nat.le_refl _))

theorem collapseSpaces_cons_sp (l : List Char) :
    collapseSpaces (' ' :: l) = ' ' :: collapseSpaces (l.dropWhile (· == ' ')) := by
  show cSgo (' ' :: l).length (' ' :: l) = _
  simp only [List.length_cons, cSgo, if_pos rfl]
  have hlen : (l.dropWhile (· == ' ')).length ≤ l.length := by
    have := len_take_drop (· == ' ') l
    omega
  exact congrArg (fun x => ' ' :: x) (cSgo_congr _ _ _ hlen (Nat.le_refl _))

/-! Facts about `splitLastNl`. -/

theorem splitLastNl_none_iff : ∀ {l : List Char}, splitLastNl l = none ↔ '\n' ∉ l := by
  intro l
  induction l with
  | nil => simp [splitLastNl]
  | cons c rest ih =>
    simp only [splitLastNl]
    cases hr : splitLastNl rest with
    | some s =>
      simp only [List.mem_cons]
      constructor
      · intro h; cases h
      · intro h
        exact absurd (ih.mpr (fun hm => h (Or.inr hm))) (by simp [hr])
    | none =>
      have hnr : '\n' ∉ rest := ih.mp hr
      by_cases hc : c = '\n'
      · simp [hc]
      · simp [hc, hnr, Ne.symm hc]

theorem splitLastNl_not_mem : ∀ {l t : List Char}, splitLastNl l = some t → '\n' ∉ t := by
  intro l
  induction l with
  | nil => intro t h; simp [splitLastNl] at h
  | cons c rest ih =>
    intro t h
    simp only [splitLastNl] at h
    cases hr : splitLastNl rest with
    | some s =>
      rw [hr] at h; cases h
      exact ih hr
    | none =>
      rw [hr] at h
      by_cases hc : c = '\n'
      · simp [hc] at h
        subst h
        exact splitLastNl_none_iff.mp hr
      · simp [hc] at h

theorem splitLastNl_decomp : ∀ {l t : List Char}, splitLastNl l = some t →
    ∃ u, l = u ++ '\n' :: t := by
  intro l
  induction l with
  | nil => intro t h; simp [splitLastNl] at h
  | cons c rest ih =>
    intro t h
    simp only [splitLastNl] at h
    cases hr : splitLastNl rest with
    | some s =>
      rw [hr] at h; cases h
      obtain ⟨u, hu⟩ := ih hr
      exact ⟨c :: u, by rw [hu]; rfl⟩
    | none =>
      rw [hr] at h
      by_cases hc : c = '\n'
      · simp [hc] at h
        subst h
        exact ⟨[], by rw [hc]; rfl⟩
      · simp [hc] at h

theorem splitLastNl_append_cons : ∀ (x : List Char) {y : List Char}, '\n' ∉ y →
    splitLastNl (x ++ '\n' :: y) = some y := by
  intro x
  induction x with
  | nil =>
    intro y hy
    simp only [List.nil_append, splitLastNl, splitLastNl_none_iff.mpr hy]
    simp
  | cons c t ih =>
    intro y hy
    simp only [List.cons_append, splitLastNl, List.append_eq]
    rw [ih hy]

/-! Head and membership facts about the two collapse scanners. -/

theorem head_collapseBlank (l : List Char) : (collapseBlank l).head? = l.head? := by
  cases l with
  | nil => rfl
  | cons c rest =>
    by_cases hc : c = '\n'
    · subst hc
      cases hs : splitLastNl (rest.takeWhile ws) with
      | some tail => rw [collapseBlank_cons_some rest tail hs]; rfl
      | none => rw [collapseBlank_cons_none rest hs]; rfl
    · rw [collapseBlank_cons_ne rest hc]; rfl

theorem head_collapseSpaces (l : List Char) : (collapseSpaces l).head? = l.head? := by
  cases l with
  | nil => rfl
  | cons c rest =>
    by_cases hc : c = ' '
    · subst hc
      rw [collapseSpaces_cons_sp]; rfl
    · rw [collapseSpaces_cons_ne rest hc]; rfl

theorem mem_cSgo : ∀ (f : Nat) (l : List Char) {c : Char}, c ∈ cSgo f l → c ∈ l := by
  intro f
  induction f with
  | zero =>
    intro l c h
    cases l with
    | nil => exact absurd h (List.not_mem_nil c)
    | cons a t => exact h
  | succ f ih =>
    intro l c h
    cases l with
    | nil => exact absurd h (List.not_mem_nil c)
    | cons a t =>
      simp only [cSgo] at h
      by_cases ha : a = ' '
      · rw [if_pos ha] at h
        rcases List.mem_cons.mp h with h | h
        · exact ha ▸ h ▸ List.mem_cons_self _ _
        · have := ih _ h
          have hsub : c ∈ t := by
            have := List.takeWhile_append_dropWhile (· == ' ') t
            rw [← this]
            exact List.mem_append_right _ ‹c ∈ t.dropWhile (· == ' ')›
          exact List.mem_cons_of_mem _ hsub
      · rw [if_neg ha] at h
        rcases List.mem_cons.mp h with h | h
        · exact h ▸ List.mem_cons_self _ _
        · exact List.mem_cons_of_mem _ (ih _ h)

theorem mem_collapseSpaces {c : Char} {l : List Char} (h : c ∈ collapseSpaces l) : c ∈ l :=
  mem_cSgo _ _ h

theorem mem_takeWhile_ws {c : Char} : ∀ {l : List Char}, c ∈ l.takeWhile ws → ws c = true := by
  intro l
  induction l with
  | nil => intro h; simp at h
  | cons a t ih =>
    intro h
    by_cases ha : ws a
    · rw [List.takeWhile_cons_of_pos ha] at h
      rcases List.mem_cons.mp h with h | h
      · exact h ▸ ha
      · exact ih h
    · rw [List.takeWhile_cons_of_neg ha] at h
      simp at h

theorem tw_nil_of_head {l : List Char} (h : ∀ c, l.head? = some c → ws c = false) :
    l.takeWhile ws = [] := by
  cases l with
  | nil => rfl
  | cons a t =>
    have := h a rfl
    exact List.takeWhile_cons_of_neg (by simp [this])

theorem dw_self_of_head {l : List Char} (h : ∀ c, l.head? = some c → ws c = false) :
    l.dropWhile ws = l := by
  cases l with
  | nil => rfl
  | cons a t =>
    have := h a rfl
    exact List.dropWhile_cons_of_neg (by simp [this])

theorem head_dropWhile_ws (l : List Char) :
    ∀ c, ((l.dropWhile ws).head? = some c) → ws c = false := by
  intro c hc
  have := List.head?_dropWhile_not ws l
  rw [hc] at this
  exact this

theorem head_dropWhile_sp (l : List Char) :
    ∀ c, ((l.dropWhile (· == ' ')).head? = some c) → ¬ c = ' ' := by
  intro c hc
  have := List.head?_dropWhile_not (· == ' ') l
  rw [hc] at this
  simpa using this

theorem dw_sp_self {r : List Char} (h : ∀ c, r.head? = some c → ¬ c = ' ') :
    r.dropWhile (· == ' ') = r := by
  cases r with
  | nil => rfl
  | cons a t => exact List.dropWhile_cons_of_neg (by simpa using h a rfl)

theorem head_cB_dw (l : List Char) :
    ∀ c, ((collapseBlank (l.dropWhile ws)).head? = some c) → ws c = false := by
  intro c hc
  rw [head_collapseBlank] at hc
  exact head_dropWhile_ws l c hc

/-! Append laws for the collapse scanners. -/

theorem collapseBlank_append_no_nl : ∀ (u l : List Char), (∀ c ∈ u, ¬ c = '\n') →
    collapseBlank (u ++ l) = u ++ collapseBlank l := by
  intro u
  induction u with
  | nil => intro l _; rfl
  | cons a t ih =>
    intro l hu
    have ha : ¬ a = '\n' := hu a (List.mem_cons_self _ _)
    rw [List.cons_append, collapseBlank_cons_ne _ ha,
      ih l (fun c hc => hu c (List.mem_cons_of_mem _ hc)), List.cons_append]

theorem cS_append_aux : ∀ (n : Nat) (u r : List Char), u.length ≤ n →
    (∀ c, r.head? = some c → ¬ c = ' ') →
    collapseSpaces (u ++ r) = collapseSpaces u ++ collapseSpaces r := by
  intro n
  induction n with
  | zero =>
    intro u r hu _
    have : u = [] := List.length_eq_zero.mp (Nat.le_zero.mp hu)
    subst this
    simp [collapseSpaces_nil]
  | succ n ih =>
    intro u r hu hr
    cases u with
    | nil => simp [collapseSpaces_nil]
    | cons a t =>
      have ht : t.length ≤ n := Nat.le_of_succ_le_succ hu
      by_cases ha : a = ' '
      · subst ha
        rw [List.cons_append, collapseSpaces_cons_sp, collapseSpaces_cons_sp, List.cons_append]
        rw [List.dropWhile_append]
        cases hd : (t.dropWhile (· == ' ')).isEmpty
        · simp only [hd, Bool.false_eq_true, if_false]
          have hdl : (t.dropWhile (· == ' ')).length ≤ n := by
            have := len_take_drop (· == ' ') t
            omega
          rw [ih _ r hdl hr]
        · simp only [hd, if_true]
          rw [List.isEmpty_iff.mp hd, dw_sp_self hr, collapseSpaces_nil, List.nil_append]
      · rw [List.cons_append, collapseSpaces_cons_ne _ ha, collapseSpaces_cons_ne _ ha,
          ih t r ht hr, List.cons_append]

theorem collapseSpaces_append (u r : List Char) (hr : ∀ c, r.head? = some c → ¬ c = ' ') :
    collapseSpaces (u ++ r) = collapseSpaces u ++ collapseSpaces r :=
  cS_append_aux u.length u r (Nat.le_refl _) hr

/-! Idempotence of the collapse scanners. -/

theorem cS_idem_aux : ∀ (n : Nat) (l : List Char), l.length ≤ n →
    collapseSpaces (collapseSpaces l) = collapseSpaces l := by
  intro n
  induction n with
  | zero =>
    intro l h
    have : l = [] := List.length_eq_zero.mp (Nat.le_zero.mp h)
    subst this; rfl
  | succ n ih =>
    intro l hl
    cases l with
    | nil => rfl
    | cons a t =>
      have ht : t.length ≤ n := Nat.le_of_succ_le_succ hl
      by_cases ha : a = ' '
      · subst ha
        rw [collapseSpaces_cons_sp, collapseSpaces_cons_sp]
        have hhead : ∀ c, (collapseSpaces (t.dropWhile (· == ' '))).head? = some c → ¬ c = ' ' := by
          intro c hc
          rw [head_collapseSpaces] at hc
          exact head_dropWhile_sp t c hc
        rw [dw_sp_self hhead]
        have hdl : (t.dropWhile (· == ' ')).length ≤ n := by
          have := len_take_drop (· == ' ') t
          omega
        rw [ih _ hdl]
      · rw [collapseSpaces_cons_ne _ ha, collapseSpaces_cons_ne _ ha, ih t ht]

theorem collapseSpaces_idem (l : List Char) :
    collapseSpaces (collapseSpaces l) = collapseSpaces l :=
  cS_idem_aux l.length l (Nat.le_refl _)

theorem cB_idem_aux : ∀ (n : Nat) (l : List Char), l.length ≤ n →
    collapseBlank (collapseBlank l) = collapseBlank l := by
  intro n
  induction n with
  | zero =>
    intro l h
    have : l = [] := List.length_eq_zero.mp (Nat.le_zero.mp h)
    subst this; rfl
  | succ n ih =>
    intro l hl
    cases l with
    | nil => rfl
    | cons c rest =>
      have hrest : rest.length ≤ n := Nat.le_of_succ_le_succ hl
      have hrd : (rest.dropWhile ws).length ≤ n := by
        have := len_take_drop ws rest
        omega
      by_cases hc : c = '\n'
      · subst hc
        cases hs : splitLastNl (rest.takeWhile ws) with
        | none =>
          have hw : '\n' ∉ rest.takeWhile ws := splitLastNl_none_iff.mp hs
          rw [collapseBlank_cons_none rest hs]
          have h1 : collapseBlank rest
              = rest.takeWhile ws ++ collapseBlank (rest.dropWhile ws) := by
            conv_lhs => rw [← List.takeWhile_append_dropWhile (p := ws) (l := rest)]
            exact collapseBlank_append_no_nl _ _ (fun a ham heq => hw (heq ▸ ham))
          have h2 : (collapseBlank rest).takeWhile ws = rest.takeWhile ws := by
            rw [h1, List.takeWhile_append_of_pos (fun a hm => mem_takeWhile_ws hm),
              tw_nil_of_head (head_cB_dw rest), List.append_nil]
          have h3 : splitLastNl ((collapseBlank rest).takeWhile ws) = none := by
            rw [h2]; exact hs
          rw [collapseBlank_cons_none _ h3, ih rest hrest]
        | some tail =>
          have htail_nn : '\n' ∉ tail := splitLastNl_not_mem hs
          obtain ⟨u, hu⟩ := splitLastNl_decomp hs
          have htail_ws : ∀ a ∈ tail, ws a = true := by
            intro a ha
            apply mem_takeWhile_ws (l := rest)
            rw [hu]
            exact List.mem_append_right _ (List.mem_cons_of_mem _ ha)
          rw [collapseBlank_cons_some rest tail hs]
          have h1 : collapseBlank (tail ++ rest.dropWhile ws)
              = tail ++ collapseBlank (rest.dropWhile ws) :=
            collapseBlank_append_no_nl _ _ (fun a ham heq => htail_nn (heq ▸ ham))
          have h2 : ('\n' :: collapseBlank (tail ++ rest.dropWhile ws)).takeWhile ws
              = '\n' :: tail := by
            rw [h1, List.takeWhile_cons_of_pos (by simp [ws]),
              List.takeWhile_append_of_pos htail_ws,
              tw_nil_of_head (head_cB_dw rest), List.append_nil]
          have h3 : splitLastNl (('\n' :: collapseBlank (tail ++ rest.dropWhile ws)).takeWhile ws)
              = some tail := by
            rw [h2]
            exact splitLastNl_append_cons [] htail_nn
          rw [collapseBlank_cons_some _ tail h3]
          have h4 : ('\n' :: collapseBlank (tail ++ rest.dropWhile ws)).dropWhile ws
              = collapseBlank (rest.dropWhile ws) := by
            rw [h1, List.dropWhile_cons_of_pos (by simp [ws]),
              List.dropWhile_append_of_pos htail_ws,
              dw_self_of_head (head_cB_dw rest)]
          rw [h4]
          have h5 : collapseBlank (tail ++ collapseBlank (rest.dropWhile ws))
              = tail ++ collapseBlank (collapseBlank (rest.dropWhile ws)) :=
            collapseBlank_append_no_nl _ _ (fun a ham heq => htail_nn (heq ▸ ham))
          rw [h5, ih _ hrd, h1]
      · rw [collapseBlank_cons_ne rest hc, collapseBlank_cons_ne _ hc, ih rest hrest]

theorem collapseBlank_idem (l : List Char) :
    collapseBlank (collapseBlank l) = collapseBlank l :=
  cB_idem_aux l.length l (Nat.le_refl _)

theorem mem_takeWhile_pred {p : Char → Bool} {c : Char} :
    ∀ {l : List Char}, c ∈ l.takeWhile p → p c = true := by
  intro l
  induction l with
  | nil => intro h; simp at h
  | cons a t ih =>
    intro h
    by_cases ha : p a
    · rw [List.takeWhile_cons_of_pos ha] at h
      rcases List.mem_cons.mp h with h | h
      · exact h ▸ ha
      · exact ih h
    · rw [List.takeWhile_cons_of_neg ha] at h
      simp at h

theorem not_sp_of_not_ws {c : Char} (h : ws c = false) : ¬ c = ' ' := by
  intro e
  subst e
  simp [ws] at h

/-! The two regex substitutions commute. -/

theorem cB_cS_comm_aux : ∀ (n : Nat) (l : List Char), l.length ≤ n →
    collapseBlank (collapseSpaces l) = collapseSpaces (collapseBlank l) := by
  intro n
  induction n with
  | zero =>
    intro l h
    have : l = [] := List.length_eq_zero.mp (Nat.le_zero.mp h)
    subst this; rfl
  | succ n ih =>
    intro l hl
    cases l with
    | nil => rfl
    | cons a rest =>
      have hrest : rest.length ≤ n := Nat.le_of_succ_le_succ hl
      by_cases ha : a = ' '
      · subst ha
        have hz : ∀ c, (rest.dropWhile (· == ' ')).head? = some c → ¬ c = ' ' :=
          head_dropWhile_sp rest
        have hzl : (rest.dropWhile (· == ' ')).length ≤ n := by
          have := len_take_drop (· == ' ') rest
          omega
        rw [collapseSpaces_cons_sp,
          collapseBlank_cons_ne _ (by decide : ¬ (' ' : Char) = '\n'),
          collapseBlank_cons_ne _ (by decide : ¬ (' ' : Char) = '\n'),
          collapseSpaces_cons_sp]
        have hsp : ∀ c ∈ rest.takeWhile (· == ' '), ¬ c = '\n' := by
          intro c hc
          have : (c == ' ') = true := mem_takeWhile_pred (p := (· == ' ')) hc
          simp at this
          subst this
          decide
        have h1 : collapseBlank rest
            = rest.takeWhile (· == ' ') ++ collapseBlank (rest.dropWhile (· == ' ')) := by
          conv_lhs => rw [← List.takeWhile_append_dropWhile (p := (· == ' ')) (l := rest)]
          exact collapseBlank_append_no_nl _ _ hsp
        have h2 : (collapseBlank rest).dropWhile (· == ' ')
            = collapseBlank (rest.dropWhile (· == ' ')) := by
          rw [h1, List.dropWhile_append_of_pos (fun a hm => mem_takeWhile_pred hm)]
          apply dw_sp_self
          intro c hc
          rw [head_collapseBlank] at hc
          exact hz c hc
        rw [h2, ih _ hzl]
      · by_cases hnl : a = '\n'
        · subst hnl
          have hrws : ∀ c, (rest.dropWhile ws).head? = some c → ws c = false :=
            head_dropWhile_ws rest
          have hrsp : ∀ c, (rest.dropWhile ws).head? = some c → ¬ c = ' ' :=
            fun c hc => not_sp_of_not_ws (hrws c hc)
          have hWmem : ∀ c ∈ rest.takeWhile ws, ws c = true := fun a hm => mem_takeWhile_ws hm
          have hcsw : ∀ c ∈ collapseSpaces (rest.takeWhile ws), ws c = true :=
            fun a hm => mem_takeWhile_ws (mem_collapseSpaces hm)
          have hsplit : collapseSpaces rest
              = collapseSpaces (rest.takeWhile ws) ++ collapseSpaces (rest.dropWhile ws) := by
            conv_lhs => rw [← List.takeWhile_append_dropWhile (p := ws) (l := rest)]
            exact collapseSpaces_append _ _ hrsp
          have htwcs : (collapseSpaces rest).takeWhile ws
              = collapseSpaces (rest.takeWhile ws) := by
            rw [hsplit, List.takeWhile_append_of_pos hcsw]
            have : (collapseSpaces (rest.dropWhile ws)).takeWhile ws = [] := by
              apply tw_nil_of_head
              intro c hc
              rw [head_collapseSpaces] at hc
              exact hrws c hc
            rw [this, List.append_nil]
          have hdwcs : (collapseSpaces rest).dropWhile ws
              = collapseSpaces (rest.dropWhile ws) := by
            rw [hsplit, List.dropWhile_append_of_pos hcsw]
            apply dw_self_of_head
            intro c hc
            rw [head_collapseSpaces] at hc
            exact hrws c hc
          rw [collapseSpaces_cons_ne _ ha]
          cases hs : splitLastNl (rest.takeWhile ws) with
          | none =>
            have hw : '\n' ∉ rest.takeWhile ws := splitLastNl_none_iff.mp hs
            have hw2 : '\n' ∉ (collapseSpaces rest).takeWhile ws := by
              rw [htwcs]
              exact fun hm => hw (mem_collapseSpaces hm)
            rw [collapseBlank_cons_none rest hs,
              collapseBlank_cons_none _ (splitLastNl_none_iff.mpr hw2),
              collapseSpaces_cons_ne _ ha, ih rest hrest]
          | some tail =>
            have htail_nn : '\n' ∉ tail := splitLastNl_not_mem hs
            obtain ⟨u, hu⟩ := splitLastNl_decomp hs
            have htail_ws : ∀ a ∈ tail, ws a = true := by
              intro a ham
              apply mem_takeWhile_ws (l := rest)
              rw [hu]
              exact List.mem_append_right _ (List.mem_cons_of_mem _ ham)
            have hcsu : collapseSpaces (rest.takeWhile ws)
                = collapseSpaces u ++ '\n' :: collapseSpaces tail := by
              rw [hu, collapseSpaces_append u ('\n' :: tail)
                (by intro c hc; cases hc; decide),
                collapseSpaces_cons_ne _ (by decide : ¬ ('\n' : Char) = ' ')]
            have htailcs_nn : '\n' ∉ collapseSpaces tail :=
              fun hm => htail_nn (mem_collapseSpaces hm)
            have hs2 : splitLastNl ((collapseSpaces rest).takeWhile ws)
                = some (collapseSpaces tail) := by
              rw [htwcs, hcsu]
              exact splitLastNl_append_cons _ htailcs_nn
            rw [collapseBlank_cons_some rest tail hs,
              collapseBlank_cons_some _ _ hs2, hdwcs]
            have hlen2 : (tail ++ rest.dropWhile ws).length ≤ n := by
              have h1 := splitLastNl_length hs
              have h2 := len_take_drop ws rest
              rw [List.length_append]
              omega
            rw [collapseSpaces_cons_ne _ ha,
              collapseSpaces_cons_ne _ (by decide : ¬ ('\n' : Char) = ' '),
              ← collapseSpaces_append tail (rest.dropWhile ws) hrsp, ih _ hlen2]
        · rw [collapseSpaces_cons_ne _ ha, collapseBlank_cons_ne _ hnl,
            collapseBlank_cons_ne _ hnl, collapseSpaces_cons_ne _ ha, ih rest hrest]

theorem cB_cS_comm (l : List Char) :
    collapseBlank (collapseSpaces l) = collapseSpaces (collapseBlank l) :=
  cB_cS_comm_aux l.length l (Nat.le_refl _)

/-! Facts about `pyStrip`. -/

theorem head_append_of_cons {x : Char} {xs l : List Char} :
    ((x :: xs) ++ l).head? = some x := rfl

theorem dropWhile_ws_idem (l : List Char) :
    (l.dropWhile ws).dropWhile ws = l.dropWhile ws :=
  dw_self_of_head (head_dropWhile_ws l)

theorem pyStrip_idem (l : List Char) : pyStrip (pyStrip l) = pyStrip l := by
  unfold pyStrip
  have hstep1 : (((l.dropWhile ws).reverse.dropWhile ws).reverse).dropWhile ws
      = ((l.dropWhile ws).reverse.dropWhile ws).reverse := by
    apply dw_self_of_head
    intro c hc
    have hA : l.dropWhile ws
        = ((l.dropWhile ws).reverse.dropWhile ws).reverse
          ++ ((l.dropWhile ws).reverse.takeWhile ws).reverse := by
      conv_lhs => rw [← List.reverse_reverse (l.dropWhile ws),
        ← List.takeWhile_append_dropWhile (p := ws) (l := (l.dropWhile ws).reverse)]
      rw [List.reverse_append]
    cases hB : ((l.dropWhile ws).reverse.dropWhile ws).reverse with
    | nil => rw [hB] at hc; cases hc
    | cons x xs =>
      rw [hB] at hc
      cases hc
      apply head_dropWhile_ws l
      rw [hA, hB]
      exact head_append_of_cons
  rw [hstep1, List.reverse_reverse, dropWhile_ws_idem]

theorem pyStrip_infix (l : List Char) :
    ∃ t₁ t₂, l = t₁ ++ pyStrip l ++ t₂ := by
  refine ⟨l.takeWhile ws, ((l.dropWhile ws).reverse.takeWhile ws).reverse, ?_⟩
  conv_lhs => rw [← List.takeWhile_append_dropWhile (p := ws) (l := l)]
  rw [List.append_assoc]
  congr 1
  conv_lhs => rw [← List.reverse_reverse (l.dropWhile ws),
    ← List.takeWhile_append_dropWhile (p := ws) (l := (l.dropWhile ws).reverse)]
  rw [List.reverse_append]
  rfl

/-! `noDoubleSpace` characterises the fixed points of `collapseSpaces`. -/

theorem noDoubleSpace_cons_tail : ∀ {a : Char} {t : List Char},
    noDoubleSpace (a :: t) → noDoubleSpace t := by
  intro a t h
  cases t with
  | nil => trivial
  | cons b t' => exact h.2

theorem length_cSgo_le : ∀ (f : Nat) (l : List Char), (cSgo f l).length ≤ l.length := by
  intro f
  induction f with
  | zero => intro l; cases l <;> simp [cSgo]
  | succ f ih =>
    intro l
    cases l with
    | nil => simp [cSgo]
    | cons a t =>
      simp only [cSgo]
      by_cases ha : a = ' '
      · rw [if_pos ha]
        simp only [List.length_cons, Nat.succ_le_succ_iff]
        calc (cSgo f (t.dropWhile (· == ' '))).length
            ≤ (t.dropWhile (· == ' ')).length := ih _
          _ ≤ t.length := by have := len_take_drop (· == ' ') t; omega
      · rw [if_neg ha]
        simpa using ih t

theorem length_collapseSpaces_le (l : List Char) :
    (collapseSpaces l).length ≤ l.length := length_cSgo_le _ _

theorem collapseSpaces_fixed_iff : ∀ {l : List Char},
    collapseSpaces l = l ↔ noDoubleSpace l := by
  have main : ∀ (n : Nat) (l : List Char), l.length ≤ n →
      (collapseSpaces l = l ↔ noDoubleSpace l) := by
    intro n
    induction n with
    | zero =>
      intro l h
      have : l = [] := List.length_eq_zero.mp (Nat.le_zero.mp h)
      subst this
      simp [collapseSpaces_nil, noDoubleSpace]
    | succ n ih =>
      intro l hl
      cases l with
      | nil => simp [collapseSpaces_nil, noDoubleSpace]
      | cons a t =>
        have ht : t.length ≤ n := Nat.le_of_succ_le_succ hl
        by_cases ha : a = ' '
        · subst ha
          rw [collapseSpaces_cons_sp]
          constructor
          · intro h
            have h2 : collapseSpaces (t.dropWhile (· == ' ')) = t :=
              (List.cons.injEq _ _ _ _).mp h |>.2
            have hlen : t.length ≤ (t.dropWhile (· == ' ')).length := by
              conv_lhs => rw [← h2]
              exact length_collapseSpaces_le _
            have htw : (t.takeWhile (· == ' ')).length = 0 := by
              have := len_take_drop (· == ' ') t
              omega
            have htw2 : t.takeWhile (· == ' ') = [] := List.length_eq_zero.mp htw
            have hdw : t.dropWhile (· == ' ') = t := by
              conv_rhs => rw [← List.takeWhile_append_dropWhile (p := (· == ' ')) (l := t)]
              rw [htw2, List.nil_append]
            rw [hdw] at h2
            have hnd : noDoubleSpace t := (ih t ht).mp h2
            cases t with
            | nil => trivial
            | cons b t' =>
              have hb : ¬ b = ' ' := by
                intro he
                subst he
                rw [List.takeWhile_cons_of_pos (by simp)] at htw2
                cases htw2
              exact ⟨fun hc => hb hc.2, hnd⟩
          · intro h
            have hdw : t.dropWhile (· == ' ') = t := by
              apply dw_sp_self
              intro c hc
              cases t with
              | nil => cases hc
              | cons b t' =>
                cases hc
                intro he
                exact h.1 ⟨rfl, he⟩
            rw [hdw, (ih t ht).mpr (noDoubleSpace_cons_tail h)]
        · rw [collapseSpaces_cons_ne _ ha]
          constructor
          · intro h
            have h2 : collapseSpaces t = t := (List.cons.injEq _ _ _ _).mp h |>.2
            have hnd : noDoubleSpace t := (ih t ht).mp h2
            cases t with
            | nil => trivial
            | cons b t' => exact ⟨fun hc => ha hc.1, hnd⟩
          · intro h
            rw [(ih t ht).mpr (noDoubleSpace_cons_tail h)]
  intro l
  exact main l.length l (Nat.le_refl _)

theorem noDoubleSpace_append_right : ∀ (a b : List Char),
    noDoubleSpace (a ++ b) → noDoubleSpace b := by
  intro a
  induction a with
  | nil => intro b h; exact h
  | cons x a' ih =>
    intro b h
    exact ih b (noDoubleSpace_cons_tail h)

theorem noDoubleSpace_append_left : ∀ (a b : List Char),
    noDoubleSpace (a ++ b) → noDoubleSpace a := by
  intro a
  induction a with
  | nil => intro b _; trivial
  | cons x rest ih =>
    intro b h
    cases rest with
    | nil => trivial
    | cons y a' =>
      have h' : noDoubleSpace (x :: y :: (a' ++ b)) := h
      exact ⟨h'.1, ih b h'.2⟩

/-! `blankFixed` characterises the fixed points of `collapseBlank`. -/

theorem blankFixed_cons_tail {c : Char} {t : List Char} (h : blankFixed (c :: t)) :
    blankFixed t := h.2

theorem collapseBlank_fixed_iff : ∀ {l : List Char},
    collapseBlank l = l ↔ blankFixed l := by
  have main : ∀ (n : Nat) (l : List Char), l.length ≤ n →
      (collapseBlank l = l ↔ blankFixed l) := by
    intro n
    induction n with
    | zero =>
      intro l h
      have : l = [] := List.length_eq_zero.mp (Nat.le_zero.mp h)
      subst this
      simp [collapseBlank_nil, blankFixed]
    | succ n ih =>
      intro n' hl
      cases n' with
      | nil => simp [collapseBlank_nil, blankFixed]
      | cons c rest =>
        have hrest : rest.length ≤ n := Nat.le_of_succ_le_succ hl
        by_cases hc : c = '\n'
        · subst hc
          cases hs : splitLastNl (rest.takeWhile ws) with
          | none =>
            rw [collapseBlank_cons_none rest hs]
            constructor
            · intro h
              have h2 : collapseBlank rest = rest := (List.cons.injEq _ _ _ _).mp h |>.2
              exact ⟨fun _ => Or.inl (splitLastNl_none_iff.mp hs), (ih rest hrest).mp h2⟩
            · intro h
              rw [(ih rest hrest).mpr h.2]
          | some tail =>
            have htail_nn : '\n' ∉ tail := splitLastNl_not_mem hs
            obtain ⟨u, hu⟩ := splitLastNl_decomp hs
            have htail_ws : ∀ a ∈ tail, ws a = true := by
              intro a ham
              apply mem_takeWhile_ws (l := rest)
              rw [hu]
              exact List.mem_append_right _ (List.mem_cons_of_mem _ ham)
            rw [collapseBlank_cons_some rest tail hs]
            constructor
            · intro h
              have h2 : rest = '\n' :: collapseBlank (tail ++ rest.dropWhile ws) :=
                ((List.cons.injEq _ _ _ _).mp h |>.2).symm
              have h3 : collapseBlank (tail ++ rest.dropWhile ws)
                  = tail ++ collapseBlank (rest.dropWhile ws) :=
                collapseBlank_append_no_nl _ _ (fun a ham heq => htail_nn (heq ▸ ham))
              have h4 : rest = '\n' :: (tail ++ collapseBlank (rest.dropWhile ws)) := by
                conv_lhs => rw [h2]
                rw [h3]
              -- the whitespace run of rest is the immediate newline and tail
              have h5 : rest.takeWhile ws = '\n' :: tail := by
                conv_lhs => rw [h4]
                rw [List.takeWhile_cons_of_pos (by simp [ws]),
                  List.takeWhile_append_of_pos htail_ws,
                  tw_nil_of_head (head_cB_dw rest), List.append_nil]
              -- from the two decompositions of rest, the dropped part is fixed
              have h6 : rest = '\n' :: (tail ++ rest.dropWhile ws) := by
                conv_lhs => rw [← List.takeWhile_append_dropWhile (p := ws) (l := rest), h5]
                rw [List.cons_append]
              have h7 : collapseBlank (rest.dropWhile ws) = rest.dropWhile ws := by
                have h9 := h4.symm.trans h6
                have h10 : tail ++ collapseBlank (rest.dropWhile ws)
                    = tail ++ rest.dropWhile ws :=
                  (List.cons.injEq _ _ _ _).mp h9 |>.2
                exact List.append_cancel_left h10
              -- rest itself is a fixed point
              have htw : (tail ++ rest.dropWhile ws).takeWhile ws = tail := by
                rw [List.takeWhile_append_of_pos htail_ws,
                  tw_nil_of_head (head_dropWhile_ws rest), List.append_nil]
              have h8 : collapseBlank rest = rest := by
                conv_lhs => rw [h6]
                rw [collapseBlank_cons_none _
                    (by rw [htw]; exact splitLastNl_none_iff.mpr htail_nn),
                  collapseBlank_append_no_nl _ _ (fun a ham heq => htail_nn (heq ▸ ham)),
                  h7, ← h6]
              exact ⟨fun _ => Or.inr ⟨tail, h5, htail_nn⟩, (ih rest hrest).mp h8⟩
            · intro h
              rcases h.1 rfl with hok | ⟨tail', heq, hnn'⟩
              · exact absurd hs (by rw [splitLastNl_none_iff.mpr hok]; simp)
              · -- the run starts with an immediate newline: tail' = tail
                have : splitLastNl (rest.takeWhile ws) = some tail' := by
                  rw [heq]
                  exact splitLastNl_append_cons [] hnn'
                rw [hs] at this
                cases this
                -- rest = '\n' :: tail ++ dropped part, and the tail part is blankFixed
                have h6 : rest = '\n' :: (tail ++ rest.dropWhile ws) := by
                  conv_lhs => rw [← List.takeWhile_append_dropWhile (p := ws) (l := rest), heq]
                  rw [List.cons_append]
                have hbf : blankFixed (tail ++ rest.dropWhile ws) := by
                  have h11 := h.2
                  rw [h6] at h11
                  exact h11.2
                have hlen : (tail ++ rest.dropWhile ws).length ≤ n := by
                  have h9 := congrArg List.length h6
                  simp only [List.length_cons, List.length_append] at h9
                  rw [List.length_append]
                  omega
                have h7 : collapseBlank (tail ++ rest.dropWhile ws)
                    = tail ++ rest.dropWhile ws := (ih _ hlen).mpr hbf
                rw [h7, ← h6]
        · rw [collapseBlank_cons_ne rest hc]
          constructor
          · intro h
            have h2 : collapseBlank rest = rest := (List.cons.injEq _ _ _ _).mp h |>.2
            exact ⟨fun he => absurd he hc, (ih rest hrest).mp h2⟩
          · intro h
            rw [(ih rest hrest).mpr h.2]
  intro l
  exact main l.length l (Nat.le_refl _)

theorem blankFixed_append_right : ∀ (a b : List Char),
    blankFixed (a ++ b) → blankFixed b := by
  intro a
  induction a with
  | nil => intro b h; exact h
  | cons x a' ih => intro b h; exact ih b h.2

theorem takeWhile_length_eq_self {p : Char → Bool} {a : List Char}
    (h : (a.takeWhile p).length = a.length) : a.takeWhile p = a := by
  have hd : (a.dropWhile p).length = 0 := by
    have := len_take_drop p a
    omega
  have : a.dropWhile p = [] := List.length_eq_zero.mp hd
  conv_rhs => rw [← List.takeWhile_append_dropWhile (p := p) (l := a), this, List.append_nil]

theorem nlRunOk_of_append {a b : List Char} (h : nlRunOk (a ++ b)) : nlRunOk a := by
  unfold nlRunOk at *
  rw [List.takeWhile_append] at h
  by_cases hlen : (a.takeWhile ws).length = a.length
  · rw [if_pos hlen] at h
    have ha : a.takeWhile ws = a := takeWhile_length_eq_self hlen
    rcases h with h | ⟨tail, heq, hnn⟩
    · left
      rw [ha]
      intro hm
      exact h (List.mem_append_left _ hm)
    · cases a with
      | nil => left; simp
      | cons x a' =>
        rw [List.cons_append] at heq
        have hx : x = '\n' := (List.cons.injEq _ _ _ _).mp heq |>.1
        have ha' : a' ++ b.takeWhile ws = tail := (List.cons.injEq _ _ _ _).mp heq |>.2
        right
        refine ⟨a', by rw [ha, hx], ?_⟩
        intro hm
        exact hnn (ha' ▸ List.mem_append_left _ hm)
  · rw [if_neg hlen] at h
    exact h

theorem blankFixed_append_left : ∀ (a b : List Char),
    blankFixed (a ++ b) → blankFixed a := by
  intro a
  induction a with
  | nil => intro b _; trivial
  | cons c a' ih =>
    intro b h
    exact ⟨fun hc => nlRunOk_of_append (h.1 hc), ih b h.2⟩

/-! The output of `clean_text` is a fixed point of each of its three passes. -/

theorem cleanChars_fixedpoints (l : List Char) :
    collapseBlank (cleanChars l) = cleanChars l ∧
    collapseSpaces (cleanChars l) = cleanChars l ∧
    pyStrip (cleanChars l) = cleanChars l := by
  have ht1 : collapseBlank (collapseSpaces (collapseBlank l))
      = collapseSpaces (collapseBlank l) := by
    rw [cB_cS_comm, collapseBlank_idem]
  have ht2 : collapseSpaces (collapseSpaces (collapseBlank l))
      = collapseSpaces (collapseBlank l) := collapseSpaces_idem _
  obtain ⟨t₁, t₂, hinf⟩ := pyStrip_infix (collapseSpaces (collapseBlank l))
  refine ⟨?_, ?_, pyStrip_idem _⟩
  · apply collapseBlank_fixed_iff.mpr
    have hbf : blankFixed (t₁ ++ (pyStrip (collapseSpaces (collapseBlank l)) ++ t₂)) := by
      rw [← List.append_assoc, ← hinf]
      exact collapseBlank_fixed_iff.mp ht1
    exact blankFixed_append_left _ _ (blankFixed_append_right _ _ hbf)
  · apply collapseSpaces_fixed_iff.mpr
    have hnd : noDoubleSpace (t₁ ++ (pyStrip (collapseSpaces (collapseBlank l)) ++ t₂)) := by
      rw [← List.append_assoc, ← hinf]
      exact collapseSpaces_fixed_iff.mp ht2
    exact noDoubleSpace_append_left _ _ (noDoubleSpace_append_right _ _ hnd)

theorem cleanChars_idem (l : List Char) : cleanChars (cleanChars l) = cleanChars l := by
  obtain ⟨h1, h2, h3⟩ := cleanChars_fixedpoints l
  show pyStrip (collapseSpaces (collapseBlank (cleanChars l))) = cleanChars l
  rw [h1, h2, h3]

theorem clean_text_data (s : String) : (clean_text s).data = cleanChars s.data := by
  by_cases hs : s = ""
  · subst hs
    rfl
  · simp [clean_text, hs]

theorem clean_text_idem (T : String) : clean_text (clean_text T) = clean_text T := by
  apply String.ext
  rw [clean_text_data, clean_text_data, cleanChars_idem]

theorem clean_text_stripped (s : String) : pstrip (clean_text s) = clean_text s := by
  apply String.ext
  show pyStrip (clean_text s).data = (clean_text s).data
  rw [clean_text_data, (cleanChars_fixedpoints s.data).2.2]

/-! Lemmas about the cascade loop. -/

theorem absorb_error {f : Fault} : absorb (.error f) = none := rfl

theorem loopMethods_first : ∀ (pre : List (Option StratResult)) (m : Option StratResult)
    (post : List (Option StratResult)) (cur : Option StratResult),
    (∀ m' ∈ pre, acceptable m' = false) → acceptable m = true →
    loopMethods (pre ++ m :: post) cur = (m, pre.length + 1) := by
  intro pre
  induction pre with
  | nil =>
    intro m post cur _ hm
    simp [loopMethods, hm]
  | cons a t ih =>
    intro m post cur hpre hm
    have ha : acceptable a = false := hpre a (List.mem_cons_self _ _)
    have ih' := ih m post a (fun x hx => hpre x (List.mem_cons_of_mem _ hx)) hm
    simp only [List.cons_append, loopMethods, ha, Bool.false_eq_true, if_false,
      List.append_eq, ih', List.length_cons]

theorem loopMethods_result_mem : ∀ (L : List (Option StratResult)) (cur : Option StratResult),
    (loopMethods L cur).1 = cur ∨ (loopMethods L cur).1 ∈ L := by
  intro L
  induction L with
  | nil => intro cur; left; rfl
  | cons m rest ih =>
    intro cur
    cases hm : acceptable m with
    | true =>
      right
      simp [loopMethods, hm]
    | false =>
      simp only [loopMethods, hm, Bool.false_eq_true, if_false]
      rcases ih m with h | h
      · right; rw [h]; exact List.mem_cons_self _ _
      · right; exact List.mem_cons_of_mem _ h

/-! Every strategy result carries content produced by `clean_text`. -/

theorem traf_content_clean {url : String} {w : TrafWorld} {r : StratResult}
    (h : scrape_with_trafilatura url w = some r) : ∃ t, r.content = clean_text t := by
  unfold scrape_with_trafilatura at h
  cases hf : trafBody url w with
  | error f => rw [hf] at h; cases h
  | ok o =>
    rw [hf] at h
    cases h
    unfold trafBody at hf
    cases hfu : w.fetch_url url with
    | error f => rw [hfu] at hf; cases hf
    | ok od =>
      rw [hfu] at hf
      cases od with
      | none => cases hf
      | some d =>
        simp only at hf
        by_cases hd : d = ""
        · rw [if_pos hd] at hf; cases hf
        · rw [if_neg hd] at hf
          cases hex : w.extract d with
          | error f => rw [hex] at hf; cases hf
          | ok ot =>
            rw [hex] at hf
            cases ot with
            | none => cases hf
            | some t =>
              simp only at hf
              by_cases ht : t = ""
              · rw [if_pos ht] at hf; cases hf
              · rw [if_neg ht] at hf
                cases hmd : w.extract_metadata d with
                | error f => rw [hmd] at hf; cases hf
                | ok md =>
                  rw [hmd] at hf
                  cases hf
                  exact ⟨t, rfl⟩

theorem bs_content_clean {url : String} {w : BsWorld} {r : StratResult}
    (h : scrape_with_beautifulsoup url w = some r) : ∃ t, r.content = clean_text t := by
  unfold scrape_with_beautifulsoup at h
  cases hf : bsBody url w with
  | error f => rw [hf] at h; cases h
  | ok o =>
    rw [hf] at h
    cases h
    unfold bsBody at hf
    cases hg : w.get url with
    | error f => rw [hg] at hf; cases hf
    | ok resp =>
      rw [hg] at hf
      simp only at hf
      by_cases hst : 400 ≤ resp.status ∧ resp.status < 600
      · rw [if_pos hst] at hf; cases hf
      · rw [if_neg hst] at hf
        cases hb : resp.body with
        | error f => rw [hb] at hf; cases hf
        | ok soup =>
          rw [hb] at hf
          simp only at hf
          by_cases hc : clean_text (String.intercalate "\n" soup.paragraphs) = ""
          · rw [if_pos hc] at hf; cases hf
          · rw [if_neg hc] at hf
            cases hf
            exact ⟨String.intercalate "\n" soup.paragraphs, rfl⟩

theorem news_content_clean {url : String} {w : NewsWorld} {r : StratResult}
    (h : scrape_with_newspaper url w = some r) : ∃ t, r.content = clean_text t := by
  unfold scrape_with_newspaper at h
  cases hf : newsBody url w with
  | error f => rw [hf] at h; cases h
  | ok o =>
    rw [hf] at h
    cases h
    unfold newsBody at hf
    cases ha : w.fetch url with
    | error f => rw [ha] at hf; cases hf
    | ok a =>
      rw [ha] at hf
      cases hf
      exact ⟨a.text, rfl⟩

theorem pw_content_clean {url : String} {w : PwWorld} {r : StratResult}
    (h : scrape_with_playwright url w = some r) : ∃ t, r.content = clean_text t := by
  unfold scrape_with_playwright at h
  cases hf : pwBody url w with
  | error f => rw [hf] at h; cases h
  | ok o =>
    rw [hf] at h
    cases h
    unfold pwBody at hf
    cases hp : w.render url with
    | error f => rw [hp] at hf; cases hf
    | ok paragraphs =>
      rw [hp] at hf
      simp only at hf
      by_cases ht : String.intercalate "\n" paragraphs = ""
      · rw [if_pos ht] at hf; cases hf
      · rw [if_neg ht] at hf
        cases hf
        exact ⟨String.intercalate "\n" paragraphs, rfl⟩

theorem stratList4_content_clean {u : String} {v : ScrapeWorld} {r : StratResult}
    (h : some r ∈ stratList4 u v) : pstrip r.content = r.content := by
  have hclean : ∃ t, r.content = clean_text t := by
    simp only [stratList4, List.mem_cons, List.not_mem_nil, or_false] at h
    rcases h with h | h | h | h
    · exact traf_content_clean h.symm
    · exact bs_content_clean h.symm
    · exact news_content_clean h.symm
    · exact pw_content_clean h.symm
  obtain ⟨t, ht⟩ := hclean
  rw [ht]
  exact clean_text_stripped t

theorem trimLen_of_clean {r : StratResult} (h : pstrip r.content = r.content) :
    trimLen (some r) = r.content.length := by
  show (pyStrip r.content.data).length = r.content.length
  have h2 : pyStrip r.content.data = r.content.data := congrArg String.data h
  rw [h2]
  rfl

theorem acceptable_some_iff {r : StratResult} :
    acceptable (some r) = true ↔ 50 < r.content.length := by
  show decide (50 < r.content.length) = true ↔ _
  simp

theorem acceptable_none : acceptable none = false := rfl

/-! Unfolding equations for the façade. -/

theorem extractRun_valid {url : String} (w : ScrapeWorld) (hv : is_valid_url url = true) :
    extractRun url w
      = (finalize (loopMethods (stratList4 (normUrl url) w) none).1,
        (loopMethods (stratList4 (normUrl url) w) none).2) := by
  unfold extractRun
  rw [hv]
  simp

theorem extractRun_invalid {url : String} (w : ScrapeWorld) (hv : is_valid_url url = false) :
    extractRun url w = (invalidOutcome, 0) := by
  unfold extractRun
  rw [hv]
  simp

theorem finalize_success_or_exhausted (x : Option StratResult) :
    finalize x = exhaustedOutcome ∨ (finalize x).success = true := by
  cases x with
  | none => left; rfl
  | some r =>
    by_cases h : r.content.length < 20
    · left; simp [finalize, h]
    · right; simp [finalize, h]

/-! The claims. -/

/-- C1: for every URL that passes validation, the four strategies are
attempted in the fixed order listed by `stratList4` (trafilatura,
BeautifulSoup, newspaper, playwright) and the cascade halts at the first
strategy whose result is non-null with trimmed content length above 50
characters: the outcome is built from exactly that result, and the number
of invoked strategies is the position of that strategy in the order, so no
strategy after it is ever invoked. -/
theorem C1_cascade_first_acceptable (url : String) (w : ScrapeWorld)
    (pre post : List (Option StratResult)) (m : Option StratResult)
    (hv : is_valid_url url = true)
    (hsplit : stratList4 (normUrl url) w = pre ++ m :: post)
    (hpre : ∀ m' ∈ pre, ¬(m' ≠ none ∧ 50 < trimLen m'))
    (hm : m ≠ none ∧ 50 < trimLen m) :
    extract_article_content url w = finalize m ∧
    strategiesInvoked url w = pre.length + 1 := by
  have hmem : ∀ m', m' ∈ stratList4 (normUrl url) w →
      (acceptable m' = true ↔ (m' ≠ none ∧ 50 < trimLen m')) := by
    intro m' hmm
    cases m' with
    | none => simp [acceptable_none]
    | some r =>
      have hc := stratList4_content_clean hmm
      rw [acceptable_some_iff, trimLen_of_clean hc]
      simp
  have hmA : acceptable m = true := by
    have := hmem m (by rw [hsplit]; exact List.mem_append_right _ (List.mem_cons_self _ _))
    exact this.mpr hm
  have hpreA : ∀ m' ∈ pre, acceptable m' = false := by
    intro m' hm'
    have hiff := hmem m' (by rw [hsplit]; exact List.mem_append_left _ hm')
    cases hA : acceptable m' with
    | false => rfl
    | true => exact absurd (hiff.mp hA) (hpre m' hm')
  have hloop := loopMethods_first pre m post none hpreA hmA
  unfold extract_article_content strategiesInvoked
  rw [extractRun_valid w hv, hsplit, hloop]
  exact ⟨rfl, rfl⟩

/-- Witness for C1: in `worldTrafWins` the first strategy is already
acceptable, the cascade stops there, and exactly one strategy is
invoked. -/
theorem C1_witness :
    is_valid_url "https://a.com" = true ∧
    (extract_article_content "https://a.com" worldTrafWins
        = finalize (scrape_with_trafilatura (normUrl "https://a.com") worldTrafWins.traf) ∧
      strategiesInvoked "https://a.com" worldTrafWins = 1) :=
  ⟨by decide,
    C1_cascade_first_acceptable "https://a.com" worldTrafWins []
      [scrape_with_beautifulsoup (normUrl "https://a.com") worldTrafWins.bs,
       scrape_with_newspaper (normUrl "https://a.com") worldTrafWins.news,
       scrape_with_playwright (normUrl "https://a.com") worldTrafWins.pw]
      (scrape_with_trafilatura (normUrl "https://a.com") worldTrafWins.traf)
      (by decide) rfl
      (fun m' hm' => absurd hm' (List.not_mem_nil m'))
      ⟨by decide, by decide⟩⟩

/-- C2 fails on the code: when the first three strategies return null and
playwright alone returns content of trimmed length 30 (inside the interval
from 21 to 50), the façade returns success rather than the claimed
failure.  After an exhausted cascade the loop variable still holds the
last attempt, which the 20 character floor passes, so that floor is
reachable rather than dead. -/
theorem C2_counterexample :
    scrape_with_trafilatura (normUrl "https://a.com") worldPwShort.traf = none ∧
    scrape_with_beautifulsoup (normUrl "https://a.com") worldPwShort.bs = none ∧
    scrape_with_newspaper (normUrl "https://a.com") worldPwShort.news = none ∧
    scrape_with_playwright (normUrl "https://a.com") worldPwShort.pw
      = some { content := String.mk (List.replicate 30 'y') } ∧
    20 < trimLen (some { content := String.mk (List.replicate 30 'y') }) ∧
    trimLen (some { content := String.mk (List.replicate 30 'y') }) ≤ 50 ∧
    (extract_article_content "https://a.com" worldPwShort).success = true :=
  ⟨by decide, by decide, by decide, by decide, by decide, by decide, by decide⟩

/-- C2 amended: a run in which exactly one strategy returns content with
trimmed length in the interval from 21 to 50 and all others return null
ends in failure only when that strategy is among the first three (its
result is overwritten by the later null attempts); when the sole
sub-threshold result comes from the fourth strategy (playwright), the
façade returns success with that content, so the 20 character floor is
reachable exactly through the last strategy. -/
theorem C2_amended_thm (url : String) (w : ScrapeWorld) (r : StratResult)
    (hv : is_valid_url url = true)
    (hlo : 20 < trimLen (some r)) (hhi : trimLen (some r) ≤ 50) :
    ((stratList4 (normUrl url) w = [some r, none, none, none] ∨
      stratList4 (normUrl url) w = [none, some r, none, none] ∨
      stratList4 (normUrl url) w = [none, none, some r, none]) →
      extract_article_content url w = exhaustedOutcome) ∧
    (stratList4 (normUrl url) w = [none, none, none, some r] →
      extract_article_content url w
        = { success := true, error := "", content := r.content,
            title := some (r.title.getD ""), author := some (r.author.getD ""),
            date := some (r.date.getD ""), description := some (r.description.getD "") }) := by
  constructor
  · intro hcase
    have hclean : pstrip r.content = r.content := by
      apply stratList4_content_clean (u := normUrl url) (v := w)
      rcases hcase with h | h | h <;> rw [h] <;> simp
    have hlen := trimLen_of_clean hclean
    have hacc : acceptable (some r) = false := by
      cases hA : acceptable (some r) with
      | false => rfl
      | true =>
        have := acceptable_some_iff.mp hA
        omega
    unfold extract_article_content
    rw [extractRun_valid w hv]
    rcases hcase with h | h | h <;>
      (rw [h]
       simp only [loopMethods, hacc, acceptable_none, Bool.false_eq_true, if_false]
       rfl)
  · intro hcase
    have hclean : pstrip r.content = r.content := by
      apply stratList4_content_clean (u := normUrl url) (v := w)
      rw [hcase]; simp
    have hlen := trimLen_of_clean hclean
    have hacc : acceptable (some r) = false := by
      cases hA : acceptable (some r) with
      | false => rfl
      | true =>
        have := acceptable_some_iff.mp hA
        omega
    have hlen20 : ¬ r.content.length < 20 := by omega
    unfold extract_article_content
    rw [extractRun_valid w hv, hcase]
    simp only [loopMethods, hacc, acceptable_none, Bool.false_eq_true, if_false]
    simp [finalize, hlen20]

/-- Witness for the amended C2: a 30 character result from the first
strategy is discarded and the run fails, while the same result from the
fourth strategy is surfaced as success. -/
theorem C2_witness :
    extract_article_content "https://a.com" worldTrafShort = exhaustedOutcome ∧
    extract_article_content "https://a.com" worldPwShort
      = { success := true, error := "", content := String.mk (List.replicate 30 'y'),
          title := some "", author := some "", date := some "", description := some "" } :=
  ⟨(C2_amended_thm "https://a.com" worldTrafShort
      { content := String.mk (List.replicate 30 'y'), title := some "", author := some "",
        date := some "", description := some "" }
      (by decide) (by decide) (by decide)).1 (Or.inl (by decide)),
   (C2_amended_thm "https://a.com" worldPwShort
      { content := String.mk (List.replicate 30 'y') }
      (by decide) (by decide) (by decide)).2 (by decide)⟩

/-- C3: for every URL and every fault raised inside a strategy body (the
fault kinds cover network errors, HTTP error status, parse errors,
browser-launch failures and timeouts), the try/except wrapper makes the
attempt return null instead of propagating; and `extract_article_content`
is a total function into outcome dictionaries whose every failure carries
one of the two fixed error messages, so no exception escapes it. -/
theorem C3_faults_absorbed (url : String) (w : ScrapeWorld) (f : Fault) :
    (∀ wt : TrafWorld, trafBody url wt = .error f →
      scrape_with_trafilatura url wt = none) ∧
    (∀ wb : BsWorld, bsBody url wb = .error f →
      scrape_with_beautifulsoup url wb = none) ∧
    (∀ wn : NewsWorld, newsBody url wn = .error f →
      scrape_with_newspaper url wn = none) ∧
    (∀ wp : PwWorld, pwBody url wp = .error f →
      scrape_with_playwright url wp = none) ∧
    ((extract_article_content url w).success = false →
      (extract_article_content url w).error = invalidOutcome.error ∨
      (extract_article_content url w).error = exhaustedOutcome.error) := by
  refine ⟨?_, ?_, ?_, ?_, ?_⟩
  · intro wt h; unfold scrape_with_trafilatura; rw [h]; rfl
  · intro wb h; unfold scrape_with_beautifulsoup; rw [h]; rfl
  · intro wn h; unfold scrape_with_newspaper; rw [h]; rfl
  · intro wp h; unfold scrape_with_playwright; rw [h]; rfl
  · intro hs
    unfold extract_article_content at hs ⊢
    cases hv : is_valid_url url with
    | false => rw [extractRun_invalid w hv]; left; rfl
    | true =>
      rw [extractRun_valid w hv]
      rcases finalize_success_or_exhausted
          (loopMethods (stratList4 (normUrl url) w) none).1 with h | h
      · right; rw [h]
      · exfalso
        rw [extractRun_valid w hv] at hs
        simp only at hs
        rw [hs] at h
        cases h

/-- Witness for C3: in `worldAllFail` every strategy body faults and every
attempt returns null; an invalid URL yields a failure dictionary carrying
one of the two fixed messages. -/
theorem C3_witness :
    scrape_with_trafilatura "https://a.com" worldAllFail.traf = none ∧
    scrape_with_beautifulsoup "https://a.com" worldAllFail.bs = none ∧
    scrape_with_newspaper "https://a.com" worldAllFail.news = none ∧
    scrape_with_playwright "https://a.com" worldAllFail.pw = none ∧
    ((extract_article_content "" worldAllFail).error = invalidOutcome.error ∨
      (extract_article_content "" worldAllFail).error = exhaustedOutcome.error) :=
  ⟨(C3_faults_absorbed "https://a.com" worldAllFail Fault.network).1 _ rfl,
   (C3_faults_absorbed "https://a.com" worldAllFail Fault.network).2.1 _ rfl,
   (C3_faults_absorbed "https://a.com" worldAllFail Fault.network).2.2.1 _ rfl,
   (C3_faults_absorbed "https://a.com" worldAllFail Fault.network).2.2.2.1 _ rfl,
   (C3_faults_absorbed "" worldAllFail Fault.network).2.2.2.2 (by decide)⟩

/-- C4: for every input string rejected by the validator (this covers the
empty string, strings whose parse yields no host, and strings without a
scheme, which the raw-input validation rejects whether or not an HTTPS
prepend could have repaired them), `extract_article_content` returns
success false with the message Invalid URL format, and no strategy is
invoked. -/
theorem C4_invalid_rejected (url : String) (w : ScrapeWorld)
    (hv : is_valid_url url = false) :
    extract_article_content url w
      = { success := false, error := "Invalid URL format", content := "" } ∧
    strategiesInvoked url w = 0 := by
  unfold extract_article_content strategiesInvoked
  rw [extractRun_invalid w hv]
  exact ⟨rfl, rfl⟩

/-- Witness for C4 at the empty string. -/
theorem C4_witness :
    is_valid_url "" = false ∧
    (extract_article_content "" worldAllFail
        = { success := false, error := "Invalid URL format", content := "" } ∧
      strategiesInvoked "" worldAllFail = 0) :=
  ⟨by decide, C4_invalid_rejected "" worldAllFail (by decide)⟩

/-- C5 fails on the code: validation runs on the raw input before the
HTTPS prepend, so the schemeless input example.com/article is rejected
with the invalid-URL outcome and no strategy is invoked; no strategy ever
receives a rewritten URL for it. -/
theorem C5_counterexample :
    is_valid_url "example.com/article" = false ∧
    extract_article_content "example.com/article" worldAllFail = invalidOutcome ∧
    strategiesInvoked "example.com/article" worldAllFail = 0 :=
  ⟨by decide, by decide, by decide⟩

/-- C5 amended: the HTTPS prepend happens after validation, not before it,
so an input without a scheme never reaches any strategy; for inputs that
do pass validation while not starting with the http or https prefix, the
string with https:// prepended is what every strategy receives. -/
theorem C5_amended_thm (url : String) (w : ScrapeWorld)
    (hv : is_valid_url url = true)
    (hs : (pyStartsWith "http://" url || pyStartsWith "https://" url) = false) :
    normUrl url = "https://" ++ url ∧
    stratList4 (normUrl url) w = stratList4 ("https://" ++ url) w ∧
    extract_article_content url w
      = finalize (loopMethods (stratList4 ("https://" ++ url) w) none).1 := by
  have hn : normUrl url = "https://" ++ url := by
    unfold normUrl
    rw [hs]
    simp
  refine ⟨hn, by rw [hn], ?_⟩
  unfold extract_article_content
  rw [extractRun_valid w hv, hn]

/-- Witness for the amended C5: a valid URL with a non-HTTP scheme is
prepended and passed on to the cascade. -/
theorem C5_witness :
    is_valid_url "ftp://example.com" = true ∧
    (pyStartsWith "http://" "ftp://example.com"
      || pyStartsWith "https://" "ftp://example.com") = false ∧
    (normUrl "ftp://example.com" = "https://" ++ "ftp://example.com" ∧
      stratList4 (normUrl "ftp://example.com") worldAllFail
        = stratList4 ("https://" ++ "ftp://example.com") worldAllFail ∧
      extract_article_content "ftp://example.com" worldAllFail
        = finalize (loopMethods
            (stratList4 ("https://" ++ "ftp://example.com") worldAllFail) none).1) :=
  ⟨by decide, by decide,
    C5_amended_thm "ftp://example.com" worldAllFail (by decide) (by decide)⟩

/-- C6: if all four strategies return null for a validated URL, the
outcome is exactly the failure dictionary with the extraction-exhausted
message, an empty content string and no metadata keys. -/
theorem C6_all_null_exhausted (url : String) (w : ScrapeWorld)
    (hv : is_valid_url url = true)
    (h1 : scrape_with_trafilatura (normUrl url) w.traf = none)
    (h2 : scrape_with_beautifulsoup (normUrl url) w.bs = none)
    (h3 : scrape_with_newspaper (normUrl url) w.news = none)
    (h4 : scrape_with_playwright (normUrl url) w.pw = none) :
    extract_article_content url w
      = { success := false
          error := "Unable to extract readable content. The site may use paywalls or advanced JS."
          content := "" } := by
  unfold extract_article_content
  rw [extractRun_valid w hv]
  show finalize (loopMethods (stratList4 (normUrl url) w) none).1 = _
  rw [stratList4, h1, h2, h3, h4]
  rfl

/-- Witness for C6 in `worldAllFail`. -/
theorem C6_witness :
    is_valid_url "https://a.com" = true ∧
    scrape_with_trafilatura (normUrl "https://a.com") worldAllFail.traf = none ∧
    scrape_with_beautifulsoup (normUrl "https://a.com") worldAllFail.bs = none ∧
    scrape_with_newspaper (normUrl "https://a.com") worldAllFail.news = none ∧
    scrape_with_playwright (normUrl "https://a.com") worldAllFail.pw = none ∧
    extract_article_content "https://a.com" worldAllFail
      = { success := false
          error := "Unable to extract readable content. The site may use paywalls or advanced JS."
          content := "" } :=
  ⟨by decide, rfl, rfl, rfl, rfl,
    C6_all_null_exhausted "https://a.com" worldAllFail (by decide) rfl rfl rfl rfl⟩

/-- C7: the content normalizer `clean_text` is idempotent, collapses runs
of blank lines to a single blank line, and collapses runs of spaces to a
single space. -/
theorem C7_normalizer_idempotent :
    (∀ T : String, clean_text (clean_text T) = clean_text T) ∧
    clean_text "a\n\n\n\nb" = "a\n\nb" ∧
    clean_text "a    b" = "a b" :=
  ⟨clean_text_idem, by decide, by decide⟩

/-- C8: for every successful outcome of `extract_article_content`, each
metadata field of the outcome is the corresponding field of the winning
result defaulted to the empty string, so a metadata field the winning
strategy did not supply is present in the outcome as an empty string,
never as null or a missing key. -/
theorem C8_metadata_defaults (url : String) (w : ScrapeWorld) (r : StratResult)
    (hv : is_valid_url url = true)
    (hr : (loopMethods (stratList4 (normUrl url) w) none).1 = some r)
    (hlen : ¬ r.content.length < 20) :
    extract_article_content url w
      = { success := true, error := "", content := r.content,
          title := some (r.title.getD ""), author := some (r.author.getD ""),
          date := some (r.date.getD ""), description := some (r.description.getD "") } := by
  unfold extract_article_content
  rw [extractRun_valid w hv]
  show finalize (loopMethods (stratList4 (normUrl url) w) none).1 = _
  rw [hr]
  simp [finalize, hlen]

/-- Witness for C8: the playwright result carries only content, and every
metadata key of the outcome is an empty string, present rather than
missing. -/
theorem C8_witness :
    (loopMethods (stratList4 (normUrl "https://a.com") worldPwShort) none).1
      = some { content := String.mk (List.replicate 30 'y') } ∧
    extract_article_content "https://a.com" worldPwShort
      = { success := true, error := "", content := String.mk (List.replicate 30 'y'),
          title := some "", author := some "", date := some "", description := some "" } :=
  ⟨by decide,
    C8_metadata_defaults "https://a.com" worldPwShort
      { content := String.mk (List.replicate 30 'y') } (by decide) (by decide) (by decide)⟩

/-- C9: every outcome of `extract_article_content` has exactly one of the
two representations: on success the error is empty, the content nonempty
and every metadata key present; on failure the error message is nonempty,
the content empty and every metadata key absent. -/
theorem C9_outcome_exclusive (url : String) (w : ScrapeWorld) :
    ((extract_article_content url w).success = true ∧
      (extract_article_content url w).error = "" ∧
      ¬ (extract_article_content url w).content = "" ∧
      (extract_article_content url w).title.isSome = true ∧
      (extract_article_content url w).author.isSome = true ∧
      (extract_article_content url w).date.isSome = true ∧
      (extract_article_content url w).description.isSome = true) ∨
    ((extract_article_content url w).success = false ∧
      ¬ (extract_article_content url w).error = "" ∧
      (extract_article_content url w).content = "" ∧
      (extract_article_content url w).title = none ∧
      (extract_article_content url w).author = none ∧
      (extract_article_content url w).date = none ∧
      (extract_article_content url w).description = none) := by
  unfold extract_article_content
  cases hv : is_valid_url url with
  | false =>
    rw [extractRun_invalid w hv]
    right
    exact ⟨rfl, by decide, rfl, rfl, rfl, rfl, rfl⟩
  | true =>
    rw [extractRun_valid w hv]
    simp only
    cases hres : (loopMethods (stratList4 (normUrl url) w) none).1 with
    | none =>
      right
      exact ⟨rfl, by decide, rfl, rfl, rfl, rfl, rfl⟩
    | some r =>
      by_cases hl : r.content.length < 20
      · have hfe : finalize (some r) = exhaustedOutcome := by simp [finalize, hl]
        rw [hfe]
        right
        exact ⟨rfl, by decide, rfl, rfl, rfl, rfl, rfl⟩
      · have hfs : finalize (some r)
            = { success := true, error := "", content := r.content,
                title := some (r.title.getD ""), author := some (r.author.getD ""),
                date := some (r.date.getD ""),
                description := some (r.description.getD "") } := by
          simp [finalize, hl]
        rw [hfs]
        left
        refine ⟨rfl, rfl, ?_, rfl, rfl, rfl, rfl⟩
        intro hc
        apply hl
        have hc' : r.content = "" := hc
        rw [hc']
        decide

/-- C10: the content of every successful outcome is already
whitespace-normalized, equal to its own strip, because every strategy
passes its extracted text through `clean_text` before returning it. -/
theorem C10_content_trimmed (url : String) (w : ScrapeWorld)
    (h : (extract_article_content url w).success = true) :
    pstrip (extract_article_content url w).content
      = (extract_article_content url w).content := by
  unfold extract_article_content at h ⊢
  cases hv : is_valid_url url with
  | false =>
    rw [extractRun_invalid w hv] at h
    exact absurd h (by decide)
  | true =>
    rw [extractRun_valid w hv] at h ⊢
    have h2 : (finalize (loopMethods (stratList4 (normUrl url) w) none).1).success = true := h
    show pstrip (finalize (loopMethods (stratList4 (normUrl url) w) none).1).content
      = (finalize (loopMethods (stratList4 (normUrl url) w) none).1).content
    clear h
    revert h2
    cases hres : (loopMethods (stratList4 (normUrl url) w) none).1 with
    | none =>
      intro h2
      exact absurd h2 (by decide)
    | some r =>
      intro h2
      by_cases hl : r.content.length < 20
      · rw [show finalize (some r) = exhaustedOutcome from by simp [finalize, hl]] at h2
        exact absurd h2 (by decide)
      · rw [show finalize (some r)
            = { success := true, error := "", content := r.content,
                title := some (r.title.getD ""), author := some (r.author.getD ""),
                date := some (r.date.getD ""),
                description := some (r.description.getD "") } from by simp [finalize, hl]]
        have hmem : some r ∈ stratList4 (normUrl url) w := by
          rcases loopMethods_result_mem (stratList4 (normUrl url) w) none with hc | hc
          · rw [hres] at hc; cases hc
          · rw [hres] at hc; exact hc
        exact stratList4_content_clean hmem

/-- Witness for C10 in `worldTrafWins`. -/
theorem C10_witness :
    (extract_article_content "https://a.com" worldTrafWins).success = true ∧
    pstrip (extract_article_content "https://a.com" worldTrafWins).content
      = (extract_article_content "https://a.com" worldTrafWins).content :=
  ⟨by decide, C10_content_trimmed "https://a.com" worldTrafWins (by decide)⟩

end NewsGuard
